import Mathlib

/-!
Shallow embedding of the license classification pipeline of
`dependency-review-action` (`src/licenses.ts`, given here as
`src/unnamed/part_000`).

External collaborators are modelled as oracle parameters collected in `Env`:
* `isSPDXValid` — the SPDX validity primitive from `utils.js`;
* `sat` — `spdxSatisfies(license, expression)`, which may throw
  (`Except.error ()`) on malformed expressions;
* `parseURL` — the platform URL constructor `new URL(url)`, returning the
  `host`/`pathname` components or failing (`none` models the thrown
  `TypeError` of a malformed URL);
* `api` — the `octokit.rest.licenses.getForRepo` call, which may throw
  (`Except.error ()`) or return the repository's `spdx_id` (possibly absent).

JavaScript `null`/`undefined` are modelled by `Option`, thrown exceptions by
`Except Unit`, and the `Map<string, boolean>` validity cache by an association
list with first-hit lookup (later `set`s shadow earlier entries, matching
`Map.set` overwrite semantics).
-/

inductive ChangeType where
  | added
  | removed
deriving DecidableEq, Repr

/-- One dependency version delta, with the fields of the `Change` schema that
the license pipeline reads (`name`, `version`, `manifest`, `change_type`,
`license`, `source_repository_url`). -/
structure Change where
  name : String
  version : String
  manifest : String
  change_type : ChangeType
  license : Option String
  source_repository_url : Option String
deriving DecidableEq, Repr

/-- The `host` and `pathname` components of a parsed URL, as produced by the
platform `URL` constructor. -/
structure ParsedURL where
  host : String
  pathname : String
deriving DecidableEq, Repr

/-- Owner and repository name extracted from a GitHub URL. -/
structure GitHubRepo where
  owner : String
  repo : String
deriving DecidableEq, Repr

/-- The oracle environment: the external primitives the pipeline calls. -/
structure Env where
  isSPDXValid : String → Bool
  sat : String → String → Except Unit Bool
  parseURL : String → Option ParsedURL
  api : String → String → Except Unit (Option String)

/-- The `allow`/`deny` policy object. -/
structure Policy where
  allow : Option (List String)
  deny : Option (List String)
deriving DecidableEq, Repr

/-- The two groups produced by `groupChanges`. -/
structure GroupedChanges where
  licensed : List Change
  unlicensed : List Change
deriving DecidableEq, Repr

/-- The three buckets returned by `getInvalidLicenseChanges`. -/
structure InvalidResult where
  unlicensed : List Change
  unresolved : List Change
  forbidden : List Change
deriving DecidableEq, Repr

/-- The validity cache, `Map<string, boolean>` keyed by license string. -/
abbrev Cache : Type := List (String × Bool)

/-- `Map.get`: first entry wins (entries are prepended on `set`, so the most
recent `set` for a key is found first, matching overwrite semantics). -/
def cacheGet (cache : Cache) (l : String) : Option Bool :=
  match List.find? (fun p => p.1 = l) cache with
  | some p => some p.2
  | none => none

/-- `Map.set`, prepending so that lookup sees the newest binding. -/
def cacheSet (cache : Cache) (l : String) (b : Bool) : Cache :=
  (l, b) :: cache

/-- `fetchGHLicense` (`part_000` lines 73–86): call the repository license API
and return `response.data.license?.spdx_id ?? null`; any thrown error is
caught and becomes `null`. -/
def fetchGHLicense (api : String → String → Except Unit (Option String))
    (owner repo : String) : Option String :=
  match api owner repo with
  | Except.ok l => l
  | Except.error _ => none

/-- `parseGitHubURL` (`part_000` lines 88–102): parse the URL (a throwing
constructor, caught to `null`), require host `github.com`, split the pathname
on `/` and require at least three components (leading empty component, owner,
repo). -/
def parseGitHubURL (parseURL : String → Option ParsedURL) (url : String) :
    Option GitHubRepo :=
  match parseURL url with
  | none => none
  | some parsed =>
    if parsed.host ≠ "github.com" then none
    else
      let components := parsed.pathname.splitOn "/"
      if components.length < 3 then none
      else some ⟨components.getD 1 "", components.getD 2 ""⟩

/-- The per-change body of the `changes.map` inside `setGHLicenses`
(`part_000` lines 105–120): changes that already have a license or have no
source URL pass through unchanged; otherwise the URL is parsed and, when it is
a GitHub URL, the change is rebuilt with the fetched license. -/
def setGHLicense (env : Env) (change : Change) : Change :=
  if change.license.isSome || change.source_repository_url.isNone then change
  else
    match change.source_repository_url with
    | none => change
    | some url =>
      match parseGitHubURL env.parseURL url with
      | none => change
      | some gh =>
        { change with license := fetchGHLicense env.api gh.owner gh.repo }

/-- `setGHLicenses` (`part_000` lines 104–123): map the per-change resolution
over the batch (`Promise.all` of independent lookups). -/
def setGHLicenses (env : Env) (changes : List Change) : List Change :=
  List.map (setGHLicense env) changes

/-- `truncatedDGLicense` (`part_000` lines 126–127): a license string is
treated as truncated by the Dependency Graph when its length is exactly 255
and it is not SPDX-valid. -/
def truncatedDGLicense (isSPDXValid : String → Bool) (license : String) :
    Bool :=
  license.length == 255 && !(isSPDXValid license)

/-- One iteration of the `for` loop of `groupChanges` (`part_000` lines
139–160), threading the `result` record and the `ghChanges` array. -/
def groupStep (env : Env) (acc : GroupedChanges × List Change)
    (change : Change) : GroupedChanges × List Change :=
  if change.change_type = ChangeType.removed then acc
  else
    match change.license with
    | none =>
      match change.source_repository_url with
      | some _ => (acc.1, acc.2 ++ [change])
      | none => ({ acc.1 with unlicensed := acc.1.unlicensed ++ [change] }, acc.2)
    | some license =>
      if truncatedDGLicense env.isSPDXValid license
          && change.source_repository_url.isSome then
        (acc.1, acc.2 ++ [change])
      else
        ({ acc.1 with licensed := acc.1.licensed ++ [change] }, acc.2)

/-- One iteration of the re-classification loop over the resolved batch
(`part_000` lines 164–170). -/
def mergeStep (acc : GroupedChanges) (change : Change) : GroupedChanges :=
  match change.license with
  | none => { acc with unlicensed := acc.unlicensed ++ [change] }
  | some _ => { acc with licensed := acc.licensed ++ [change] }

/-- `groupChanges` (`part_000` lines 129–174): first loop classifies each
non-removed change into `licensed`, `unlicensed` or the `ghChanges` batch;
when the batch is non-empty it is resolved by `setGHLicenses` and re-merged by
license presence. -/
def groupChanges (env : Env) (changes : List Change) : GroupedChanges :=
  let p := List.foldl (groupStep env) (⟨[], []⟩, []) changes
  if p.2.length > 0 then
    List.foldl mergeStep p.1 (setGHLicenses env p.2)
  else p.1

/-- `allow.find(spdxExpression => spdxSatisfies(license, spdxExpression))`:
JavaScript `Array.find` over a throwing predicate — the first expression the
license satisfies, propagating a thrown error from any predicate call reached
before a match. -/
def findSat (sat : String → String → Except Unit Bool) (license : String) :
    List String → Except Unit (Option String)
  | [] => Except.ok none
  | e :: rest =>
    match sat license e with
    | Except.error u => Except.error u
    | Except.ok true => Except.ok (some e)
    | Except.ok false => findSat sat license rest

/-- One iteration of the `for` loop of `getInvalidLicenseChanges` (`part_000`
lines 37–68), threading the bucket record and the validity cache: skip a null
license; route `"NOASSERTION"` to `unlicensed`; on a cache miss evaluate
`allow` (or else `deny`) with the thrown-error catch pushing to `unresolved`;
finally push to `forbidden` when the cached validity is `false`. -/
def evalStep (allow deny : Option (List String))
    (sat : String → String → Except Unit Bool)
    (acc : InvalidResult × Cache) (change : Change) : InvalidResult × Cache :=
  match change.license with
  | none => acc
  | some license =>
    let acc1 :=
      if license = "NOASSERTION" then
        ({ acc.1 with unlicensed := acc.1.unlicensed ++ [change] }, acc.2)
      else if cacheGet acc.2 license = none then
        match allow with
        | some allowList =>
          match findSat sat license allowList with
          | Except.ok found => (acc.1, cacheSet acc.2 license found.isSome)
          | Except.error _ =>
            ({ acc.1 with unresolved := acc.1.unresolved ++ [change] }, acc.2)
        | none =>
          match deny with
          | some denyList =>
            match findSat sat license denyList with
            | Except.ok found => (acc.1, cacheSet acc.2 license found.isNone)
            | Except.error _ =>
              ({ acc.1 with unresolved := acc.1.unresolved ++ [change] }, acc.2)
          | none => acc
      else acc
    if cacheGet acc1.2 license = some false then
      ({ acc1.1 with forbidden := acc1.1.forbidden ++ [change] }, acc1.2)
    else acc1

/-- The evaluation loop of `getInvalidLicenseChanges` over the licensed group,
returning the bucket record together with the final validity cache. -/
def evalLicensed (allow deny : Option (List String))
    (sat : String → String → Except Unit Bool) (init : InvalidResult)
    (licensed : List Change) : InvalidResult × Cache :=
  List.foldl (evalStep allow deny sat) (init, ([] : Cache)) licensed

/-- `getInvalidLicenseChanges` (`part_000` lines 17–71): group the changes,
seed `unlicensed` with the grouper's unlicensed output, then run the policy
evaluation loop over the licensed group with a fresh validity cache. -/
def getInvalidLicenseChanges (env : Env) (changes : List Change)
    (licenses : Policy) : InvalidResult :=
  let grouped := groupChanges env changes
  (evalLicensed licenses.allow licenses.deny env.sat
    ⟨grouped.unlicensed, [], []⟩ grouped.licensed).1

/-- The outcome of the policy check that `evalStep` runs on a cache miss for a
given license string: `none` when neither list is configured (no check runs),
`some (Except.ok b)` when the configured list evaluates without throwing to
validity `b`, and `some (Except.error ())` when the satisfaction check throws.
`allow` takes precedence over `deny`, exactly as in the `try` block. -/
def evalPolicy (sat : String → String → Except Unit Bool)
    (allow deny : Option (List String)) (l : String) :
    Option (Except Unit Bool) :=
  match allow with
  | some allowList =>
    some (match findSat sat l allowList with
      | Except.ok found => Except.ok found.isSome
      | Except.error u => Except.error u)
  | none =>
    match deny with
    | some denyList =>
      some (match findSat sat l denyList with
        | Except.ok found => Except.ok found.isNone
        | Except.error u => Except.error u)
    | none => none

/-- The cache component of one `evalStep` iteration, as a function of the
cache alone (the loop body never lets the buckets influence the cache). -/
def cacheStep (allow deny : Option (List String))
    (sat : String → String → Except Unit Bool) (cache : Cache)
    (change : Change) : Cache :=
  match change.license with
  | none => cache
  | some license =>
    if license = "NOASSERTION" then cache
    else if cacheGet cache license = none then
      match evalPolicy sat allow deny license with
      | some (Except.ok b) => cacheSet cache license b
      | _ => cache
    else cache

/-- The license strings for which one `evalStep` iteration runs the
allow/deny satisfaction matching (the `find` over `spdxSatisfies` calls):
exactly the non-null, non-`"NOASSERTION"` license on a cache miss when at
least one of the two lists is configured. -/
def evalLogged (allow deny : Option (List String)) (cache : Cache)
    (change : Change) : List String :=
  match change.license with
  | none => []
  | some license =>
    if license = "NOASSERTION" then []
    else if cacheGet cache license = none then
      match allow with
      | some _ => [license]
      | none =>
        match deny with
        | some _ => [license]
        | none => []
    else []

/-- `evalStep` instrumented with a log of the satisfaction-matching runs it
performs; the first component is exactly the uninstrumented step. -/
def evalStepCount (allow deny : Option (List String))
    (sat : String → String → Except Unit Bool)
    (acc : (InvalidResult × Cache) × List String) (change : Change) :
    (InvalidResult × Cache) × List String :=
  (evalStep allow deny sat acc.1 change,
    acc.2 ++ evalLogged allow deny acc.1.2 change)

/-- The instrumented evaluation loop, starting from a fresh cache and an
empty log. -/
def evalLicensedCount (allow deny : Option (List String))
    (sat : String → String → Except Unit Bool) (init : InvalidResult)
    (licensed : List Change) : (InvalidResult × Cache) × List String :=
  List.foldl (evalStepCount allow deny sat) ((init, ([] : Cache)), []) licensed

/-! Concrete fixtures used by counterexample and witness theorems. -/

/-- A change literal with fixed `version`/`manifest`. -/
def mkChange (n : String) (ct : ChangeType) (lic : Option String)
    (url : Option String) : Change :=
  { name := n, version := "1.0.0", manifest := "package.json",
    change_type := ct, license := lic, source_repository_url := url }

/-- A 255-character license string (the Dependency Graph truncation length). -/
def truncLic : String := String.mk (List.replicate 255 'x')

/-- Oracles for the truncation scenario: nothing is SPDX-valid, no license
satisfies any expression, every URL parses as `github.com/acme/widget`, and
the repository license API reports `MIT`. -/
def envTrunc : Env :=
  { isSPDXValid := fun _ => false
    sat := fun _ _ => Except.ok false
    parseURL := fun _ => some ⟨"github.com", "/acme/widget"⟩
    api := fun _ _ => Except.ok (some "MIT") }

/-- The truncation scenario change: non-removed, carrying the 255-character
license and a GitHub source URL. -/
def truncChange : Change :=
  mkChange "pkg" ChangeType.added (some truncLic)
    (some "https://github.com/acme/widget")

/-- Oracles where satisfaction is string equality, URLs never parse and the
API always throws. -/
def envEq : Env :=
  { isSPDXValid := fun _ => true
    sat := fun l e => Except.ok (l == e)
    parseURL := fun _ => none
    api := fun _ _ => Except.error () }

/-- Oracles where every satisfaction check throws. -/
def envThrow : Env :=
  { isSPDXValid := fun _ => true
    sat := fun _ _ => Except.error ()
    parseURL := fun _ => none
    api := fun _ _ => Except.error () }

/-- Oracles for the non-canonical-host scenario: URLs parse with host
`gitlab.com`. -/
def envGitlab : Env :=
  { isSPDXValid := fun _ => true
    sat := fun _ _ => Except.ok true
    parseURL := fun _ => some ⟨"gitlab.com", "/acme/widget"⟩
    api := fun _ _ => Except.ok (some "MIT") }

/-! ### Cache lemmas -/

theorem cacheGet_nil (l : String) : cacheGet [] l = none := rfl

theorem cacheGet_set_self (cache : Cache) (l : String) (b : Bool) :
    cacheGet (cacheSet cache l b) l = some b := by
  simp [cacheGet, cacheSet, List.find?]

theorem cacheGet_set_ne (cache : Cache) (l l' : String) (b : Bool)
    (h : l' ≠ l) : cacheGet (cacheSet cache l b) l' = cacheGet cache l' := by
  simp [cacheGet, cacheSet, List.find?, Ne.symm h]

/-- Soundness of the validity cache relative to the configured policy: every
entry is a successful boolean outcome of the check that `evalStep` runs, and
the `"NOASSERTION"` key never occurs. -/
def CacheInv (sat : String → String → Except Unit Bool)
    (allow deny : Option (List String)) (cache : Cache) : Prop :=
  ∀ l b, cacheGet cache l = some b →
    l ≠ "NOASSERTION" ∧ evalPolicy sat allow deny l = some (Except.ok b)

theorem cacheInv_nil (sat : String → String → Except Unit Bool)
    (allow deny : Option (List String)) : CacheInv sat allow deny [] := by
  intro l b h
  simp [cacheGet, List.find?] at h

/-- The cache component of one loop iteration is `cacheStep` of the previous
cache: the buckets never feed back into the cache. -/
theorem evalStep_cache (allow deny : Option (List String))
    (sat : String → String → Except Unit Bool) (acc : InvalidResult × Cache)
    (c : Change) :
    (evalStep allow deny sat acc c).2 = cacheStep allow deny sat acc.2 c := by
  rcases hl : c.license with _ | license
  · simp [evalStep, cacheStep, hl]
  · by_cases hna : license = "NOASSERTION"
    · subst hna
      simp [evalStep, cacheStep, hl, apply_ite Prod.snd]
    · by_cases hmiss : cacheGet acc.2 license = none
      · rcases hA : allow with _ | A
        · rcases hD : deny with _ | D
          · simp [evalStep, cacheStep, hl, hna, hmiss, evalPolicy,
              apply_ite Prod.snd]
          · rcases hfs : findSat sat license D with u | found <;>
              simp [evalStep, cacheStep, hl, hna, hmiss, evalPolicy, hfs,
                apply_ite Prod.snd]
        · rcases hfs : findSat sat license A with u | found <;>
            simp [evalStep, cacheStep, hl, hna, hmiss, evalPolicy, hfs,
              apply_ite Prod.snd]
      · simp [evalStep, cacheStep, hl, hna, hmiss, apply_ite Prod.snd]

/-- `cacheStep` either leaves the cache alone or records one successful
boolean outcome for a fresh, non-`"NOASSERTION"` license string. -/
theorem cacheStep_char (allow deny : Option (List String))
    (sat : String → String → Except Unit Bool) (cache : Cache) (c : Change) :
    cacheStep allow deny sat cache c = cache ∨
    ∃ l b, c.license = some l ∧ l ≠ "NOASSERTION" ∧
      cacheGet cache l = none ∧
      evalPolicy sat allow deny l = some (Except.ok b) ∧
      cacheStep allow deny sat cache c = cacheSet cache l b := by
  rcases hl : c.license with _ | license
  · left; simp [cacheStep, hl]
  · by_cases hna : license = "NOASSERTION"
    · left; simp [cacheStep, hl, hna]
    · by_cases hmiss : cacheGet cache license = none
      · rcases hep : evalPolicy sat allow deny license with _ | r
        · left; simp [cacheStep, hl, hna, hmiss, hep]
        · rcases r with u | b
          · left; simp [cacheStep, hl, hna, hmiss, hep]
          · right
            exact ⟨license, b, rfl, hna, hmiss, hep,
              by simp [cacheStep, hl, hna, hmiss, hep]⟩
      · left; simp [cacheStep, hl, hna, hmiss]

theorem cacheStep_inv (allow deny : Option (List String))
    (sat : String → String → Except Unit Bool) (cache : Cache) (c : Change)
    (h : CacheInv sat allow deny cache) :
    CacheInv sat allow deny (cacheStep allow deny sat cache c) := by
  rcases cacheStep_char allow deny sat cache c with heq |
    ⟨l, b, _, hna, _, hep, heq⟩
  · rwa [heq]
  · rw [heq]
    intro l' b' hget
    by_cases hll : l' = l
    · subst hll
      rw [cacheGet_set_self] at hget
      cases hget
      exact ⟨hna, hep⟩
    · rw [cacheGet_set_ne _ _ _ _ hll] at hget
      exact h l' b' hget

theorem cacheStep_get_mono (allow deny : Option (List String))
    (sat : String → String → Except Unit Bool) (cache : Cache) (c : Change)
    (l : String) (b : Bool) (h : cacheGet cache l = some b) :
    cacheGet (cacheStep allow deny sat cache c) l = some b := by
  rcases cacheStep_char allow deny sat cache c with heq |
    ⟨l', b', _, _, hmiss, _, heq⟩
  · rwa [heq]
  · rw [heq]
    by_cases hll : l = l'
    · subst hll
      rw [h] at hmiss
      cases hmiss
    · rwa [cacheGet_set_ne _ _ _ _ hll]

theorem foldl_cacheStep_inv (allow deny : Option (List String))
    (sat : String → String → Except Unit Bool) (L : List Change) :
    ∀ cache, CacheInv sat allow deny cache →
      CacheInv sat allow deny (List.foldl (cacheStep allow deny sat) cache L) := by
  induction L with
  | nil => intro cache h; exact h
  | cons c rest ih =>
    intro cache h
    exact ih _ (cacheStep_inv _ _ _ _ _ h)

theorem foldl_cacheStep_get_mono (allow deny : Option (List String))
    (sat : String → String → Except Unit Bool) (L : List Change) :
    ∀ cache l b, cacheGet cache l = some b →
      cacheGet (List.foldl (cacheStep allow deny sat) cache L) l = some b := by
  induction L with
  | nil => intro cache l b h; exact h
  | cons c rest ih =>
    intro cache l b h
    exact ih _ _ _ (cacheStep_get_mono _ _ _ _ _ _ _ h)

/-- The cache threaded through the evaluation loop is the `cacheStep` fold of
the initial cache. -/
theorem foldl_evalStep_cache (allow deny : Option (List String))
    (sat : String → String → Except Unit Bool) (L : List Change) :
    ∀ acc : InvalidResult × Cache,
      (List.foldl (evalStep allow deny sat) acc L).2 =
        List.foldl (cacheStep allow deny sat) acc.2 L := by
  induction L with
  | nil => intro acc; rfl
  | cons c rest ih =>
    intro acc
    simp only [List.foldl_cons]
    rw [ih, evalStep_cache]

theorem foldl_evalStep_cacheInv (allow deny : Option (List String))
    (sat : String → String → Except Unit Bool) (L : List Change)
    (acc : InvalidResult × Cache) (h : CacheInv sat allow deny acc.2) :
    CacheInv sat allow deny (List.foldl (evalStep allow deny sat) acc L).2 := by
  rw [foldl_evalStep_cache]
  exact foldl_cacheStep_inv _ _ _ _ _ h

/-- The `unlicensed` bucket gains exactly the `"NOASSERTION"`-licensed change
in one loop iteration. -/
theorem evalStep_unlicensed_eq (allow deny : Option (List String))
    (sat : String → String → Except Unit Bool) (acc : InvalidResult × Cache)
    (c : Change) :
    (evalStep allow deny sat acc c).1.unlicensed =
      if c.license = some "NOASSERTION" then acc.1.unlicensed ++ [c]
      else acc.1.unlicensed := by
  rcases hl : c.license with _ | license
  · simp [evalStep, hl]
  · by_cases hna : license = "NOASSERTION"
    · subst hna
      simp [evalStep, hl, apply_ite Prod.fst,
        apply_ite InvalidResult.unlicensed]
    · by_cases hmiss : cacheGet acc.2 license = none
      · rcases hA : allow with _ | A
        · rcases hD : deny with _ | D
          · simp [evalStep, hl, hna, hmiss, apply_ite Prod.fst,
              apply_ite InvalidResult.unlicensed]
          · rcases hfs : findSat sat license D with u | found <;>
              simp [evalStep, hl, hna, hmiss, hfs, apply_ite Prod.fst,
                apply_ite InvalidResult.unlicensed]
        · rcases hfs : findSat sat license A with u | found <;>
            simp [evalStep, hl, hna, hmiss, hfs, apply_ite Prod.fst,
              apply_ite InvalidResult.unlicensed]
      · simp [evalStep, hl, hna, hmiss, apply_ite Prod.fst,
          apply_ite InvalidResult.unlicensed]

/-- One loop iteration either leaves `forbidden` alone or appends exactly the
processed change, and then its license is cached `false` afterwards. -/
theorem evalStep_forbidden_char (allow deny : Option (List String))
    (sat : String → String → Except Unit Bool) (acc : InvalidResult × Cache)
    (c : Change) :
    (evalStep allow deny sat acc c).1.forbidden = acc.1.forbidden ∨
    (∃ l, c.license = some l ∧
      cacheGet (evalStep allow deny sat acc c).2 l = some false ∧
      (evalStep allow deny sat acc c).1.forbidden = acc.1.forbidden ++ [c]) := by
  rcases hl : c.license with _ | license
  · left; simp [evalStep, hl]
  · by_cases hna : license = "NOASSERTION"
    · subst hna
      by_cases hback : cacheGet acc.2 "NOASSERTION" = some false
      · right
        refine ⟨"NOASSERTION", rfl, ?_, ?_⟩
        · rw [evalStep_cache]
          simpa [cacheStep, hl] using hback
        · simp [evalStep, hl, hback]
      · left
        simp [evalStep, hl, hback]
    · by_cases hmiss : cacheGet acc.2 license = none
      · rcases hA : allow with _ | A
        · rcases hD : deny with _ | D
          · by_cases hback : cacheGet acc.2 license = some false
            · rw [hback] at hmiss; cases hmiss
            · left; simp [evalStep, hl, hna, hmiss, hback]
          · rcases hfs : findSat sat license D with u | found
            · left; simp [evalStep, hl, hna, hmiss, hfs]
            · rcases found with _ | e
              · left
                simp [evalStep, hl, hna, hmiss, hfs, cacheGet_set_self]
              · right
                refine ⟨license, rfl, ?_, ?_⟩
                · rw [evalStep_cache]
                  simp [cacheStep, hl, hna, hmiss, evalPolicy, hfs,
                    cacheGet_set_self]
                · simp [evalStep, hl, hna, hmiss, hfs, cacheGet_set_self]
        · rcases hfs : findSat sat license A with u | found
          · left; simp [evalStep, hl, hna, hmiss, hfs]
          · rcases found with _ | e
            · right
              refine ⟨license, rfl, ?_, ?_⟩
              · rw [evalStep_cache]
                simp [cacheStep, hl, hna, hmiss, evalPolicy, hfs,
                  cacheGet_set_self]
              · simp [evalStep, hl, hna, hmiss, hfs, cacheGet_set_self]
            · left
              simp [evalStep, hl, hna, hmiss, hfs, cacheGet_set_self]
      · by_cases hback : cacheGet acc.2 license = some false
        · right
          refine ⟨license, rfl, ?_, ?_⟩
          · rw [evalStep_cache]
            simpa [cacheStep, hl, hna, hmiss] using hback
          · simp [evalStep, hl, hna, hmiss, hback]
        · left
          simp [evalStep, hl, hna, hmiss, hback]

/-- One loop iteration either leaves `unresolved` alone or appends exactly
the processed change, whose policy check threw on a cache miss. -/
theorem evalStep_unresolved_char (allow deny : Option (List String))
    (sat : String → String → Except Unit Bool) (acc : InvalidResult × Cache)
    (c : Change) :
    (evalStep allow deny sat acc c).1.unresolved = acc.1.unresolved ∨
    (∃ l, c.license = some l ∧ l ≠ "NOASSERTION" ∧ cacheGet acc.2 l = none ∧
      evalPolicy sat allow deny l = some (Except.error ()) ∧
      (evalStep allow deny sat acc c).1.unresolved =
        acc.1.unresolved ++ [c]) := by
  rcases hl : c.license with _ | license
  · left; simp [evalStep, hl]
  · by_cases hna : license = "NOASSERTION"
    · subst hna
      left
      simp [evalStep, hl, apply_ite Prod.fst,
        apply_ite InvalidResult.unresolved]
    · by_cases hmiss : cacheGet acc.2 license = none
      · rcases hA : allow with _ | A
        · rcases hD : deny with _ | D
          · left
            simp [evalStep, hl, hna, hmiss, apply_ite Prod.fst,
              apply_ite InvalidResult.unresolved]
          · rcases hfs : findSat sat license D with u | found
            · right
              refine ⟨license, rfl, hna, hmiss, ?_, ?_⟩
              · simp [evalPolicy, hA, hD, hfs]
              · simp [evalStep, hl, hna, hmiss, hfs]
            · left
              simp [evalStep, hl, hna, hmiss, hfs, apply_ite Prod.fst,
                apply_ite InvalidResult.unresolved]
        · rcases hfs : findSat sat license A with u | found
          · right
            refine ⟨license, rfl, hna, hmiss, ?_, ?_⟩
            · simp [evalPolicy, hA, hfs]
            · simp [evalStep, hl, hna, hmiss, hfs]
          · left
            simp [evalStep, hl, hna, hmiss, hfs, apply_ite Prod.fst,
              apply_ite InvalidResult.unresolved]
      · left
        simp [evalStep, hl, hna, hmiss, apply_ite Prod.fst,
          apply_ite InvalidResult.unresolved]

/-- When the configured check evaluates the change's license to `false`
(directly or via a sound cache entry), the iteration appends the change to
`forbidden`. -/
theorem evalStep_forbidden_push (allow deny : Option (List String))
    (sat : String → String → Except Unit Bool) (acc : InvalidResult × Cache)
    (c : Change) (l : String) (hinv : CacheInv sat allow deny acc.2)
    (hl : c.license = some l) (hna : l ≠ "NOASSERTION")
    (hep : evalPolicy sat allow deny l = some (Except.ok false)) :
    (evalStep allow deny sat acc c).1.forbidden = acc.1.forbidden ++ [c] := by
  by_cases hmiss : cacheGet acc.2 l = none
  · rcases hA : allow with _ | A
    · rcases hD : deny with _ | D
      · rw [evalPolicy.eq_def, hA, hD] at hep; cases hep
      · rcases hfs : findSat sat l D with u | found
        · rw [evalPolicy.eq_def] at hep; simp [hA, hD, hfs] at hep
        · have hfound : found.isNone = false := by
            rw [evalPolicy.eq_def] at hep
            simpa [hA, hD, hfs] using hep
          simp [evalStep, hl, hna, hmiss, hA, hD, hfs, cacheGet_set_self,
            hfound]
    · rcases hfs : findSat sat l A with u | found
      · rw [evalPolicy.eq_def] at hep; simp [hA, hfs] at hep
      · have hfound : found.isSome = false := by
          rw [evalPolicy.eq_def] at hep
          simpa [hA, hfs] using hep
        simp [evalStep, hl, hna, hmiss, hA, hfs, cacheGet_set_self, hfound]
  · rcases hget : cacheGet acc.2 l with _ | b
    · exact absurd hget hmiss
    · have hb : b = false := by
        have h2 := (hinv l b hget).2
        have h3 := h2.symm.trans hep
        simpa using h3
      subst hb
      simp [evalStep, hl, hna, hget]

/-- When the configured check throws on a license not yet cached, the
iteration is exactly the `unresolved` push: the buckets gain the change in
`unresolved` only, and the cache is untouched. -/
theorem evalStep_unresolved_push (allow deny : Option (List String))
    (sat : String → String → Except Unit Bool) (acc : InvalidResult × Cache)
    (c : Change) (l : String) (hl : c.license = some l)
    (hna : l ≠ "NOASSERTION") (hmiss : cacheGet acc.2 l = none)
    (hep : evalPolicy sat allow deny l = some (Except.error ())) :
    evalStep allow deny sat acc c =
      ({ acc.1 with unresolved := acc.1.unresolved ++ [c] }, acc.2) := by
  rcases hA : allow with _ | A
  · rcases hD : deny with _ | D
    · rw [evalPolicy.eq_def, hA, hD] at hep; cases hep
    · rcases hfs : findSat sat l D with u | found
      · simp [evalStep, hl, hna, hmiss, hA, hD, hfs]
      · rw [evalPolicy.eq_def] at hep; simp [hA, hD, hfs] at hep
  · rcases hfs : findSat sat l A with u | found
    · simp [evalStep, hl, hna, hmiss, hA, hfs]
    · rw [evalPolicy.eq_def] at hep; simp [hA, hfs] at hep

/-- The `"NOASSERTION"` iteration under a sound cache is exactly the
`unlicensed` push. -/
theorem evalStep_noassertion_push (allow deny : Option (List String))
    (sat : String → String → Except Unit Bool) (acc : InvalidResult × Cache)
    (c : Change) (hinv : CacheInv sat allow deny acc.2)
    (hl : c.license = some "NOASSERTION") :
    evalStep allow deny sat acc c =
      ({ acc.1 with unlicensed := acc.1.unlicensed ++ [c] }, acc.2) := by
  have hback : cacheGet acc.2 "NOASSERTION" ≠ some false := by
    intro h
    exact (hinv _ _ h).1 rfl
  simp [evalStep, hl, hback]

theorem evalStep_forbidden_mono (allow deny : Option (List String))
    (sat : String → String → Except Unit Bool) (acc : InvalidResult × Cache)
    (c d : Change) (h : d ∈ acc.1.forbidden) :
    d ∈ (evalStep allow deny sat acc c).1.forbidden := by
  rcases evalStep_forbidden_char allow deny sat acc c with heq |
    ⟨l, _, _, heq⟩
  · rwa [heq]
  · rw [heq]; exact List.mem_append_left _ h

theorem evalStep_unresolved_mono (allow deny : Option (List String))
    (sat : String → String → Except Unit Bool) (acc : InvalidResult × Cache)
    (c d : Change) (h : d ∈ acc.1.unresolved) :
    d ∈ (evalStep allow deny sat acc c).1.unresolved := by
  rcases evalStep_unresolved_char allow deny sat acc c with heq |
    ⟨l, _, _, _, _, heq⟩
  · rwa [heq]
  · rw [heq]; exact List.mem_append_left _ h

theorem evalStep_unlicensed_mono (allow deny : Option (List String))
    (sat : String → String → Except Unit Bool) (acc : InvalidResult × Cache)
    (c d : Change) (h : d ∈ acc.1.unlicensed) :
    d ∈ (evalStep allow deny sat acc c).1.unlicensed := by
  rw [evalStep_unlicensed_eq]
  split
  · exact List.mem_append_left _ h
  · exact h

/-- Across the whole loop, `unlicensed` gains exactly the `"NOASSERTION"`
changes of the input, in order. -/
theorem foldl_evalStep_unlicensed (allow deny : Option (List String))
    (sat : String → String → Except Unit Bool) (L : List Change) :
    ∀ acc : InvalidResult × Cache,
      (List.foldl (evalStep allow deny sat) acc L).1.unlicensed =
        acc.1.unlicensed ++
          List.filter (fun c => c.license == some "NOASSERTION") L := by
  induction L with
  | nil => intro acc; simp
  | cons c rest ih =>
    intro acc
    simp only [List.foldl_cons, List.filter_cons]
    rw [ih]
    by_cases hc : c.license = some "NOASSERTION"
    · simp [evalStep_unlicensed_eq, hc]
    · simp [evalStep_unlicensed_eq, hc]

theorem foldl_evalStep_forbidden_mono (allow deny : Option (List String))
    (sat : String → String → Except Unit Bool) (L : List Change) :
    ∀ (acc : InvalidResult × Cache) (d : Change), d ∈ acc.1.forbidden →
      d ∈ (List.foldl (evalStep allow deny sat) acc L).1.forbidden := by
  induction L with
  | nil => intro acc d h; exact h
  | cons c rest ih =>
    intro acc d h
    exact ih _ _ (evalStep_forbidden_mono _ _ _ _ _ _ h)

theorem foldl_evalStep_unresolved_mono (allow deny : Option (List String))
    (sat : String → String → Except Unit Bool) (L : List Change) :
    ∀ (acc : InvalidResult × Cache) (d : Change), d ∈ acc.1.unresolved →
      d ∈ (List.foldl (evalStep allow deny sat) acc L).1.unresolved := by
  induction L with
  | nil => intro acc d h; exact h
  | cons c rest ih =>
    intro acc d h
    exact ih _ _ (evalStep_unresolved_mono _ _ _ _ _ _ h)

theorem foldl_evalStep_unlicensed_mono (allow deny : Option (List String))
    (sat : String → String → Except Unit Bool) (L : List Change) :
    ∀ (acc : InvalidResult × Cache) (d : Change), d ∈ acc.1.unlicensed →
      d ∈ (List.foldl (evalStep allow deny sat) acc L).1.unlicensed := by
  induction L with
  | nil => intro acc d h; exact h
  | cons c rest ih =>
    intro acc d h
    exact ih _ _ (evalStep_unlicensed_mono _ _ _ _ _ _ h)

/-- Provenance of `forbidden`: under a sound starting cache, every member
either was already there or is an input change whose configured check
evaluates its (non-`"NOASSERTION"`) license to `false`. -/
theorem foldl_evalStep_forbidden_src (allow deny : Option (List String))
    (sat : String → String → Except Unit Bool) (L : List Change) :
    ∀ acc : InvalidResult × Cache, CacheInv sat allow deny acc.2 →
      ∀ d ∈ (List.foldl (evalStep allow deny sat) acc L).1.forbidden,
        d ∈ acc.1.forbidden ∨
        (d ∈ L ∧ ∃ l, d.license = some l ∧ l ≠ "NOASSERTION" ∧
          evalPolicy sat allow deny l = some (Except.ok false)) := by
  induction L with
  | nil => intro acc _ d hd; exact Or.inl hd
  | cons c rest ih =>
    intro acc hinv d hd
    simp only [List.foldl_cons] at hd
    have hinv' : CacheInv sat allow deny (evalStep allow deny sat acc c).2 := by
      rw [evalStep_cache]
      exact cacheStep_inv _ _ _ _ _ hinv
    rcases ih (evalStep allow deny sat acc c) hinv' d hd with h1 | ⟨hmem, hprop⟩
    · rcases evalStep_forbidden_char allow deny sat acc c with heq |
        ⟨l, hlic, hget, heq⟩
      · rw [heq] at h1; exact Or.inl h1
      · rw [heq] at h1
        rcases List.mem_append.1 h1 with h2 | h2
        · exact Or.inl h2
        · have hdc : d = c := by simpa using h2
          subst hdc
          have hsound := hinv' l false hget
          exact Or.inr ⟨List.mem_cons_self _ _,
            l, hlic, hsound.1, hsound.2⟩
    · exact Or.inr ⟨List.mem_cons_of_mem _ hmem, hprop⟩

/-- Provenance of `unresolved`: every member either was already there or is
an input change whose configured check threw on its (non-`"NOASSERTION"`)
license. -/
theorem foldl_evalStep_unresolved_src (allow deny : Option (List String))
    (sat : String → String → Except Unit Bool) (L : List Change) :
    ∀ acc : InvalidResult × Cache,
      ∀ d ∈ (List.foldl (evalStep allow deny sat) acc L).1.unresolved,
        d ∈ acc.1.unresolved ∨
        (d ∈ L ∧ ∃ l, d.license = some l ∧ l ≠ "NOASSERTION" ∧
          evalPolicy sat allow deny l = some (Except.error ())) := by
  induction L with
  | nil => intro acc d hd; exact Or.inl hd
  | cons c rest ih =>
    intro acc d hd
    simp only [List.foldl_cons] at hd
    rcases ih (evalStep allow deny sat acc c) d hd with h1 | ⟨hmem, hprop⟩
    · rcases evalStep_unresolved_char allow deny sat acc c with heq |
        ⟨l, hlic, hna, _, hep, heq⟩
      · rw [heq] at h1; exact Or.inl h1
      · rw [heq] at h1
        rcases List.mem_append.1 h1 with h2 | h2
        · exact Or.inl h2
        · have hdc : d = c := by simpa using h2
          subst hdc
          exact Or.inr ⟨List.mem_cons_self _ _, l, hlic, hna, hep⟩
    · exact Or.inr ⟨List.mem_cons_of_mem _ hmem, hprop⟩

/-- Completeness of `forbidden`: an input change whose configured check
evaluates its license to `false` ends up in `forbidden`. -/
theorem foldl_evalStep_forbidden_mem (allow deny : Option (List String))
    (sat : String → String → Except Unit Bool) (L : List Change) :
    ∀ acc : InvalidResult × Cache, CacheInv sat allow deny acc.2 →
      ∀ d ∈ L, ∀ l, d.license = some l → l ≠ "NOASSERTION" →
        evalPolicy sat allow deny l = some (Except.ok false) →
        d ∈ (List.foldl (evalStep allow deny sat) acc L).1.forbidden := by
  induction L with
  | nil => intro acc _ d hd; cases hd
  | cons c rest ih =>
    intro acc hinv d hd l hl hna hep
    simp only [List.foldl_cons]
    have hinv' : CacheInv sat allow deny (evalStep allow deny sat acc c).2 := by
      rw [evalStep_cache]
      exact cacheStep_inv _ _ _ _ _ hinv
    rcases List.mem_cons.1 hd with h1 | h1
    · subst h1
      have hpush := evalStep_forbidden_push allow deny sat acc d l hinv hl
        hna hep
      have hmem : d ∈ (evalStep allow deny sat acc d).1.forbidden := by
        rw [hpush]
        exact List.mem_append_right _ (by simp)
      exact foldl_evalStep_forbidden_mono _ _ _ _ _ _ hmem
    · exact ih _ hinv' d h1 l hl hna hep

/-- Completeness of `unresolved`: an input change whose configured check
throws on its license ends up in `unresolved`. -/
theorem foldl_evalStep_unresolved_mem (allow deny : Option (List String))
    (sat : String → String → Except Unit Bool) (L : List Change) :
    ∀ acc : InvalidResult × Cache, CacheInv sat allow deny acc.2 →
      ∀ d ∈ L, ∀ l, d.license = some l → l ≠ "NOASSERTION" →
        evalPolicy sat allow deny l = some (Except.error ()) →
        d ∈ (List.foldl (evalStep allow deny sat) acc L).1.unresolved := by
  induction L with
  | nil => intro acc _ d hd; cases hd
  | cons c rest ih =>
    intro acc hinv d hd l hl hna hep
    simp only [List.foldl_cons]
    have hinv' : CacheInv sat allow deny (evalStep allow deny sat acc c).2 := by
      rw [evalStep_cache]
      exact cacheStep_inv _ _ _ _ _ hinv
    rcases List.mem_cons.1 hd with h1 | h1
    · subst h1
      have hmiss : cacheGet acc.2 l = none := by
        rcases hg : cacheGet acc.2 l with _ | b
        · rfl
        · have h2 := (hinv l b hg).2
          rw [hep] at h2
          simp at h2
      have hpush := evalStep_unresolved_push allow deny sat acc d l hl hna
        hmiss hep
      have hmem : d ∈ (evalStep allow deny sat acc d).1.unresolved := by
        rw [hpush]
        exact List.mem_append_right _ (by simp)
      exact foldl_evalStep_unresolved_mono _ _ _ _ _ _ hmem
    · exact ih _ hinv' d h1 l hl hna hep

/-- Completeness of `unlicensed`: `"NOASSERTION"` input changes end up in
`unlicensed`. -/
theorem foldl_evalStep_unlicensed_mem (allow deny : Option (List String))
    (sat : String → String → Except Unit Bool) (L : List Change)
    (acc : InvalidResult × Cache) (d : Change) (hd : d ∈ L)
    (hl : d.license = some "NOASSERTION") :
    d ∈ (List.foldl (evalStep allow deny sat) acc L).1.unlicensed := by
  rw [foldl_evalStep_unlicensed]
  refine List.mem_append_right _ (List.mem_filter.2 ⟨hd, by simp [hl]⟩)

/-- Remote resolution never changes a change's `change_type`. -/
theorem setGHLicense_change_type (env : Env) (c : Change) :
    (setGHLicense env c).change_type = c.change_type := by
  unfold setGHLicense
  split
  · rfl
  · split
    · rfl
    · split <;> rfl

/-- One grouper iteration either leaves `licensed` alone or appends exactly
the processed change, which then has a present license and is not removed. -/
theorem groupStep_licensed_char (env : Env)
    (acc : GroupedChanges × List Change) (c : Change) :
    (groupStep env acc c).1.licensed = acc.1.licensed ∨
    ((∃ l, c.license = some l) ∧ c.change_type ≠ ChangeType.removed ∧
      (groupStep env acc c).1.licensed = acc.1.licensed ++ [c]) := by
  by_cases hr : c.change_type = ChangeType.removed
  · left; simp [groupStep, hr]
  · rcases hl : c.license with _ | license
    · rcases hu : c.source_repository_url with _ | u
      · left; simp [groupStep, hr, hl, hu]
      · left; simp [groupStep, hr, hl, hu]
    · by_cases ht : (truncatedDGLicense env.isSPDXValid license
          && c.source_repository_url.isSome) = true
      · left; simp [groupStep, hr, hl, ht]
      · right
        exact ⟨⟨license, rfl⟩, hr, by simp [groupStep, hr, hl, ht]⟩

/-- One grouper iteration either leaves `unlicensed` alone or appends exactly
the processed change, which then has no license and is not removed. -/
theorem groupStep_unlicensed_char (env : Env)
    (acc : GroupedChanges × List Change) (c : Change) :
    (groupStep env acc c).1.unlicensed = acc.1.unlicensed ∨
    (c.license = none ∧ c.change_type ≠ ChangeType.removed ∧
      (groupStep env acc c).1.unlicensed = acc.1.unlicensed ++ [c]) := by
  by_cases hr : c.change_type = ChangeType.removed
  · left; simp [groupStep, hr]
  · rcases hl : c.license with _ | license
    · rcases hu : c.source_repository_url with _ | u
      · right
        exact ⟨rfl, hr, by simp [groupStep, hr, hl, hu]⟩
      · left; simp [groupStep, hr, hl, hu]
    · by_cases ht : (truncatedDGLicense env.isSPDXValid license
          && c.source_repository_url.isSome) = true
      · left; simp [groupStep, hr, hl, ht]
      · left; simp [groupStep, hr, hl, ht]

/-- One grouper iteration either leaves the `ghChanges` batch alone or
appends exactly the processed change, which is not removed. -/
theorem groupStep_gh_char (env : Env) (acc : GroupedChanges × List Change)
    (c : Change) :
    (groupStep env acc c).2 = acc.2 ∨
    (c.change_type ≠ ChangeType.removed ∧
      (groupStep env acc c).2 = acc.2 ++ [c]) := by
  by_cases hr : c.change_type = ChangeType.removed
  · left; simp [groupStep, hr]
  · rcases hl : c.license with _ | license
    · rcases hu : c.source_repository_url with _ | u
      · left; simp [groupStep, hr, hl, hu]
      · right
        exact ⟨hr, by simp [groupStep, hr, hl, hu]⟩
    · by_cases ht : (truncatedDGLicense env.isSPDXValid license
          && c.source_repository_url.isSome) = true
      · right
        exact ⟨hr, by simp [groupStep, hr, hl, ht]⟩
      · left; simp [groupStep, hr, hl, ht]

/-- A non-removed change with a license that fails the truncation-and-URL
condition is pushed to `licensed` verbatim. -/
theorem groupStep_licensed_push (env : Env)
    (acc : GroupedChanges × List Change) (c : Change) (l : String)
    (hr : c.change_type ≠ ChangeType.removed) (hl : c.license = some l)
    (ht : (truncatedDGLicense env.isSPDXValid l
      && c.source_repository_url.isSome) = false) :
    groupStep env acc c =
      ({ acc.1 with licensed := acc.1.licensed ++ [c] }, acc.2) := by
  simp [groupStep, hr, hl, ht]

/-- A non-removed change with no license but a source URL is pushed to the
`ghChanges` batch. -/
theorem groupStep_gh_push (env : Env) (acc : GroupedChanges × List Change)
    (c : Change) (u : String) (hr : c.change_type ≠ ChangeType.removed)
    (hl : c.license = none) (hu : c.source_repository_url = some u) :
    groupStep env acc c = (acc.1, acc.2 ++ [c]) := by
  simp [groupStep, hr, hl, hu]

theorem foldl_groupStep_licensed_mono (env : Env) (changes : List Change) :
    ∀ (acc : GroupedChanges × List Change) (d : Change),
      d ∈ acc.1.licensed →
      d ∈ (List.foldl (groupStep env) acc changes).1.licensed := by
  induction changes with
  | nil => intro acc d h; exact h
  | cons c rest ih =>
    intro acc d h
    refine ih _ _ ?_
    rcases groupStep_licensed_char env acc c with heq | ⟨_, _, heq⟩
    · rwa [heq]
    · rw [heq]; exact List.mem_append_left _ h

theorem foldl_groupStep_unlicensed_mono (env : Env) (changes : List Change) :
    ∀ (acc : GroupedChanges × List Change) (d : Change),
      d ∈ acc.1.unlicensed →
      d ∈ (List.foldl (groupStep env) acc changes).1.unlicensed := by
  induction changes with
  | nil => intro acc d h; exact h
  | cons c rest ih =>
    intro acc d h
    refine ih _ _ ?_
    rcases groupStep_unlicensed_char env acc c with heq | ⟨_, _, heq⟩
    · rwa [heq]
    · rw [heq]; exact List.mem_append_left _ h

theorem foldl_groupStep_gh_mono (env : Env) (changes : List Change) :
    ∀ (acc : GroupedChanges × List Change) (d : Change), d ∈ acc.2 →
      d ∈ (List.foldl (groupStep env) acc changes).2 := by
  induction changes with
  | nil => intro acc d h; exact h
  | cons c rest ih =>
    intro acc d h
    refine ih _ _ ?_
    rcases groupStep_gh_char env acc c with heq | ⟨_, heq⟩
    · rwa [heq]
    · rw [heq]; exact List.mem_append_left _ h

theorem foldl_groupStep_licensed_src (env : Env) (changes : List Change) :
    ∀ acc : GroupedChanges × List Change,
      ∀ d ∈ (List.foldl (groupStep env) acc changes).1.licensed,
        d ∈ acc.1.licensed ∨
        (d ∈ changes ∧ (∃ l, d.license = some l) ∧
          d.change_type ≠ ChangeType.removed) := by
  induction changes with
  | nil => intro acc d hd; exact Or.inl hd
  | cons c rest ih =>
    intro acc d hd
    simp only [List.foldl_cons] at hd
    rcases ih (groupStep env acc c) d hd with h1 | ⟨hmem, hprop⟩
    · rcases groupStep_licensed_char env acc c with heq | ⟨hsome, hr, heq⟩
      · rw [heq] at h1; exact Or.inl h1
      · rw [heq] at h1
        rcases List.mem_append.1 h1 with h2 | h2
        · exact Or.inl h2
        · have hdc : d = c := by simpa using h2
          subst hdc
          exact Or.inr ⟨List.mem_cons_self _ _, hsome, hr⟩
    · exact Or.inr ⟨List.mem_cons_of_mem _ hmem, hprop⟩

theorem foldl_groupStep_unlicensed_src (env : Env) (changes : List Change) :
    ∀ acc : GroupedChanges × List Change,
      ∀ d ∈ (List.foldl (groupStep env) acc changes).1.unlicensed,
        d ∈ acc.1.unlicensed ∨
        (d ∈ changes ∧ d.license = none ∧
          d.change_type ≠ ChangeType.removed) := by
  induction changes with
  | nil => intro acc d hd; exact Or.inl hd
  | cons c rest ih =>
    intro acc d hd
    simp only [List.foldl_cons] at hd
    rcases ih (groupStep env acc c) d hd with h1 | ⟨hmem, hprop⟩
    · rcases groupStep_unlicensed_char env acc c with heq | ⟨hnone, hr, heq⟩
      · rw [heq] at h1; exact Or.inl h1
      · rw [heq] at h1
        rcases List.mem_append.1 h1 with h2 | h2
        · exact Or.inl h2
        · have hdc : d = c := by simpa using h2
          subst hdc
          exact Or.inr ⟨List.mem_cons_self _ _, hnone, hr⟩
    · exact Or.inr ⟨List.mem_cons_of_mem _ hmem, hprop⟩

theorem foldl_groupStep_gh_src (env : Env) (changes : List Change) :
    ∀ acc : GroupedChanges × List Change,
      ∀ d ∈ (List.foldl (groupStep env) acc changes).2,
        d ∈ acc.2 ∨
        (d ∈ changes ∧ d.change_type ≠ ChangeType.removed) := by
  induction changes with
  | nil => intro acc d hd; exact Or.inl hd
  | cons c rest ih =>
    intro acc d hd
    simp only [List.foldl_cons] at hd
    rcases ih (groupStep env acc c) d hd with h1 | ⟨hmem, hprop⟩
    · rcases groupStep_gh_char env acc c with heq | ⟨hr, heq⟩
      · rw [heq] at h1; exact Or.inl h1
      · rw [heq] at h1
        rcases List.mem_append.1 h1 with h2 | h2
        · exact Or.inl h2
        · have hdc : d = c := by simpa using h2
          subst hdc
          exact Or.inr ⟨List.mem_cons_self _ _, hr⟩
    · exact Or.inr ⟨List.mem_cons_of_mem _ hmem, hprop⟩

theorem foldl_groupStep_licensed_mem (env : Env) (changes : List Change) :
    ∀ acc : GroupedChanges × List Change, ∀ d ∈ changes, ∀ l,
      d.change_type ≠ ChangeType.removed → d.license = some l →
      (truncatedDGLicense env.isSPDXValid l
        && d.source_repository_url.isSome) = false →
      d ∈ (List.foldl (groupStep env) acc changes).1.licensed := by
  induction changes with
  | nil => intro acc d hd; cases hd
  | cons c rest ih =>
    intro acc d hd l hr hl ht
    simp only [List.foldl_cons]
    rcases List.mem_cons.1 hd with h1 | h1
    · subst h1
      rw [groupStep_licensed_push env acc d l hr hl ht]
      exact foldl_groupStep_licensed_mono env rest _ _
        (List.mem_append_right _ (by simp))
    · exact ih _ d h1 l hr hl ht

theorem foldl_groupStep_gh_mem (env : Env) (changes : List Change) :
    ∀ acc : GroupedChanges × List Change, ∀ d ∈ changes, ∀ u,
      d.change_type ≠ ChangeType.removed → d.license = none →
      d.source_repository_url = some u →
      d ∈ (List.foldl (groupStep env) acc changes).2 := by
  induction changes with
  | nil => intro acc d hd; cases hd
  | cons c rest ih =>
    intro acc d hd u hr hl hu
    simp only [List.foldl_cons]
    rcases List.mem_cons.1 hd with h1 | h1
    · subst h1
      rw [groupStep_gh_push env acc d u hr hl hu]
      exact foldl_groupStep_gh_mono env rest _ _
        (List.mem_append_right _ (by simp))
    · exact ih _ d h1 u hr hl hu

/-- The re-classification step routes by license presence, touching exactly
one group. -/
theorem mergeStep_char (acc : GroupedChanges) (c : Change) :
    (c.license = none ∧ (mergeStep acc c).licensed = acc.licensed ∧
      (mergeStep acc c).unlicensed = acc.unlicensed ++ [c]) ∨
    ((∃ l, c.license = some l) ∧
      (mergeStep acc c).licensed = acc.licensed ++ [c] ∧
      (mergeStep acc c).unlicensed = acc.unlicensed) := by
  rcases hl : c.license with _ | license
  · left; exact ⟨rfl, by simp [mergeStep, hl], by simp [mergeStep, hl]⟩
  · right
    exact ⟨⟨license, rfl⟩, by simp [mergeStep, hl], by simp [mergeStep, hl]⟩

theorem foldl_mergeStep_licensed_mono (L : List Change) :
    ∀ (acc : GroupedChanges) (d : Change), d ∈ acc.licensed →
      d ∈ (List.foldl mergeStep acc L).licensed := by
  induction L with
  | nil => intro acc d h; exact h
  | cons c rest ih =>
    intro acc d h
    refine ih _ _ ?_
    rcases mergeStep_char acc c with ⟨_, heq, _⟩ | ⟨_, heq, _⟩
    · rwa [heq]
    · rw [heq]; exact List.mem_append_left _ h

theorem foldl_mergeStep_unlicensed_mono (L : List Change) :
    ∀ (acc : GroupedChanges) (d : Change), d ∈ acc.unlicensed →
      d ∈ (List.foldl mergeStep acc L).unlicensed := by
  induction L with
  | nil => intro acc d h; exact h
  | cons c rest ih =>
    intro acc d h
    refine ih _ _ ?_
    rcases mergeStep_char acc c with ⟨_, _, heq⟩ | ⟨_, _, heq⟩
    · rw [heq]; exact List.mem_append_left _ h
    · rwa [heq]

theorem foldl_mergeStep_licensed_src (L : List Change) :
    ∀ acc : GroupedChanges, ∀ d ∈ (List.foldl mergeStep acc L).licensed,
      d ∈ acc.licensed ∨ (d ∈ L ∧ ∃ l, d.license = some l) := by
  induction L with
  | nil => intro acc d hd; exact Or.inl hd
  | cons c rest ih =>
    intro acc d hd
    simp only [List.foldl_cons] at hd
    rcases ih (mergeStep acc c) d hd with h1 | ⟨hmem, hprop⟩
    · rcases mergeStep_char acc c with ⟨_, heq, _⟩ | ⟨hsome, heq, _⟩
      · rw [heq] at h1; exact Or.inl h1
      · rw [heq] at h1
        rcases List.mem_append.1 h1 with h2 | h2
        · exact Or.inl h2
        · have hdc : d = c := by simpa using h2
          subst hdc
          exact Or.inr ⟨List.mem_cons_self _ _, hsome⟩
    · exact Or.inr ⟨List.mem_cons_of_mem _ hmem, hprop⟩

theorem foldl_mergeStep_unlicensed_src (L : List Change) :
    ∀ acc : GroupedChanges, ∀ d ∈ (List.foldl mergeStep acc L).unlicensed,
      d ∈ acc.unlicensed ∨ (d ∈ L ∧ d.license = none) := by
  induction L with
  | nil => intro acc d hd; exact Or.inl hd
  | cons c rest ih =>
    intro acc d hd
    simp only [List.foldl_cons] at hd
    rcases ih (mergeStep acc c) d hd with h1 | ⟨hmem, hprop⟩
    · rcases mergeStep_char acc c with ⟨hnone, _, heq⟩ | ⟨_, _, heq⟩
      · rw [heq] at h1
        rcases List.mem_append.1 h1 with h2 | h2
        · exact Or.inl h2
        · have hdc : d = c := by simpa using h2
          subst hdc
          exact Or.inr ⟨List.mem_cons_self _ _, hnone⟩
      · rw [heq] at h1; exact Or.inl h1
    · exact Or.inr ⟨List.mem_cons_of_mem _ hmem, hprop⟩

theorem foldl_mergeStep_unlicensed_mem (L : List Change) :
    ∀ (acc : GroupedChanges) (d : Change), d ∈ L → d.license = none →
      d ∈ (List.foldl mergeStep acc L).unlicensed := by
  induction L with
  | nil => intro acc d hd; cases hd
  | cons c rest ih =>
    intro acc d hd hl
    simp only [List.foldl_cons]
    rcases List.mem_cons.1 hd with h1 | h1
    · subst h1
      refine foldl_mergeStep_unlicensed_mono rest _ _ ?_
      simp [mergeStep, hl]
    · exact ih _ d h1 hl

theorem foldl_mergeStep_licensed_mem (L : List Change) :
    ∀ (acc : GroupedChanges) (d : Change), d ∈ L →
      (∃ l, d.license = some l) →
      d ∈ (List.foldl mergeStep acc L).licensed := by
  induction L with
  | nil => intro acc d hd; cases hd
  | cons c rest ih =>
    intro acc d hd hl
    simp only [List.foldl_cons]
    rcases List.mem_cons.1 hd with h1 | h1
    · subst h1
      rcases hl with ⟨l, hl⟩
      refine foldl_mergeStep_licensed_mono rest _ _ ?_
      simp [mergeStep, hl]
    · exact ih _ d h1 hl

/-- Every member of the grouper's `licensed` output has a present license and
is not a removed change. -/
theorem groupChanges_licensed_src (env : Env) (changes : List Change) :
    ∀ d ∈ (groupChanges env changes).licensed,
      (∃ l, d.license = some l) ∧ d.change_type ≠ ChangeType.removed := by
  intro d hd
  simp only [groupChanges] at hd
  split at hd
  · rcases foldl_mergeStep_licensed_src _ _ d hd with h1 | ⟨hmem, hsome⟩
    · rcases foldl_groupStep_licensed_src env changes _ d h1 with h2 | h2
      · simp at h2
      · exact ⟨h2.2.1, h2.2.2⟩
    · rcases List.mem_map.1 hmem with ⟨e, he, hde⟩
      refine ⟨hsome, ?_⟩
      rw [← hde, setGHLicense_change_type]
      rcases foldl_groupStep_gh_src env changes _ e he with h2 | h2
      · simp at h2
      · exact h2.2
  · rcases foldl_groupStep_licensed_src env changes _ d hd with h2 | h2
    · simp at h2
    · exact ⟨h2.2.1, h2.2.2⟩

/-- Every member of the grouper's `unlicensed` output has no license and is
not a removed change. -/
theorem groupChanges_unlicensed_src (env : Env) (changes : List Change) :
    ∀ d ∈ (groupChanges env changes).unlicensed,
      d.license = none ∧ d.change_type ≠ ChangeType.removed := by
  intro d hd
  simp only [groupChanges] at hd
  split at hd
  · rcases foldl_mergeStep_unlicensed_src _ _ d hd with h1 | ⟨hmem, hnone⟩
    · rcases foldl_groupStep_unlicensed_src env changes _ d h1 with h2 | h2
      · simp at h2
      · exact ⟨h2.2.1, h2.2.2⟩
    · rcases List.mem_map.1 hmem with ⟨e, he, hde⟩
      refine ⟨hnone, ?_⟩
      rw [← hde, setGHLicense_change_type]
      rcases foldl_groupStep_gh_src env changes _ e he with h2 | h2
      · simp at h2
      · exact h2.2
  · rcases foldl_groupStep_unlicensed_src env changes _ d hd with h2 | h2
    · simp at h2
    · exact ⟨h2.2.1, h2.2.2⟩

/-- A non-removed change whose present license fails the truncated-and-URL
routing condition lands in the grouper's `licensed` output. -/
theorem groupChanges_licensed_mem (env : Env) (changes : List Change)
    (d : Change) (l : String) (hd : d ∈ changes)
    (hr : d.change_type ≠ ChangeType.removed) (hl : d.license = some l)
    (ht : (truncatedDGLicense env.isSPDXValid l
      && d.source_repository_url.isSome) = false) :
    d ∈ (groupChanges env changes).licensed := by
  have h1 := foldl_groupStep_licensed_mem env changes ⟨⟨[], []⟩, []⟩ d hd l
    hr hl ht
  simp only [groupChanges]
  split
  · exact foldl_mergeStep_licensed_mono _ _ _ h1
  · exact h1

/-- A non-removed change with no license and a source URL that remote
resolution leaves untouched lands in the grouper's `unlicensed` output. -/
theorem groupChanges_unlicensed_mem_gh (env : Env) (changes : List Change)
    (d : Change) (u : String) (hd : d ∈ changes)
    (hr : d.change_type ≠ ChangeType.removed) (hl : d.license = none)
    (hu : d.source_repository_url = some u)
    (hfix : setGHLicense env d = d) :
    d ∈ (groupChanges env changes).unlicensed := by
  have hgh := foldl_groupStep_gh_mem env changes ⟨⟨[], []⟩, []⟩ d hd u hr hl hu
  have hlen : 0 < (List.foldl (groupStep env) (⟨⟨[], []⟩, []⟩) changes).2.length :=
    List.length_pos.2 (List.ne_nil_of_mem hgh)
  simp only [groupChanges]
  split
  · refine foldl_mergeStep_unlicensed_mem _ _ _ ?_ hl
    have := List.mem_map_of_mem (setGHLicense env) hgh
    rwa [hfix] at this
  · omega

/-! ### Claim theorems -/

/-- **C3**: for every oracle environment, input change list and policy, each
change appears in at most one of the three buckets (`forbidden`, `unresolved`,
`unlicensed`) returned by `getInvalidLicenseChanges`: the buckets are pairwise
disjoint. -/
theorem claim3_buckets_pairwise_disjoint (env : Env) (changes : List Change)
    (pol : Policy) :
    (∀ c ∈ (getInvalidLicenseChanges env changes pol).forbidden,
        c ∉ (getInvalidLicenseChanges env changes pol).unresolved ∧
        c ∉ (getInvalidLicenseChanges env changes pol).unlicensed) ∧
    (∀ c ∈ (getInvalidLicenseChanges env changes pol).unresolved,
        c ∉ (getInvalidLicenseChanges env changes pol).unlicensed) := by
  constructor
  · intro c hcf
    simp only [getInvalidLicenseChanges, evalLicensed] at hcf
    rcases foldl_evalStep_forbidden_src _ _ _ _ _ (cacheInv_nil _ _ _) c hcf
      with h | ⟨hcL, l, hl, hna, hep⟩
    · simp at h
    · constructor
      · intro hcu
        simp only [getInvalidLicenseChanges, evalLicensed] at hcu
        rcases foldl_evalStep_unresolved_src _ _ _ _ _ c hcu
          with h | ⟨_, l', hl', _, hep'⟩
        · simp at h
        · rw [hl] at hl'
          have hll : l = l' := by simpa using hl'
          subst hll
          rw [hep] at hep'
          simp at hep'
      · intro hcu
        simp only [getInvalidLicenseChanges, evalLicensed] at hcu
        rw [foldl_evalStep_unlicensed] at hcu
        rcases List.mem_append.1 hcu with h | h
        · have hnone := (groupChanges_unlicensed_src env changes c h).1
          rw [hl] at hnone
          cases hnone
        · have hfil := (List.mem_filter.1 h).2
          rw [hl] at hfil
          simp at hfil
          exact hna hfil
  · intro c hcr hcu
    simp only [getInvalidLicenseChanges, evalLicensed] at hcr hcu
    rcases foldl_evalStep_unresolved_src _ _ _ _ _ c hcr
      with h | ⟨_, l, hl, hna, _⟩
    · simp at h
    · rw [foldl_evalStep_unlicensed] at hcu
      rcases List.mem_append.1 hcu with h2 | h2
      · have hnone := (groupChanges_unlicensed_src env changes c h2).1
        rw [hl] at hnone
        cases hnone
      · have hfil := (List.mem_filter.1 h2).2
        rw [hl] at hfil
        simp at hfil
        exact hna hfil

/-- Witness for C3: in a concrete run a change lands in `forbidden` and the
theorem then excludes it from `unresolved`. -/
theorem claim3_buckets_pairwise_disjoint_witness :
    (mkChange "a" ChangeType.added (some "MIT") none) ∈
      (getInvalidLicenseChanges envEq
        [mkChange "a" ChangeType.added (some "MIT") none]
        ⟨some ["GPL-3.0"], none⟩).forbidden ∧
    (mkChange "a" ChangeType.added (some "MIT") none) ∉
      (getInvalidLicenseChanges envEq
        [mkChange "a" ChangeType.added (some "MIT") none]
        ⟨some ["GPL-3.0"], none⟩).unresolved :=
  ⟨by decide,
    ((claim3_buckets_pairwise_disjoint envEq
      [mkChange "a" ChangeType.added (some "MIT") none]
      ⟨some ["GPL-3.0"], none⟩).1 _ (by decide)).1⟩

/-- **C5**: a change with `change_type = removed` appears in none of the
three output buckets, for every environment, change list and policy. -/
theorem claim5_removed_in_no_bucket (env : Env) (changes : List Change)
    (pol : Policy) (c : Change)
    (hr : c.change_type = ChangeType.removed) :
    c ∉ (getInvalidLicenseChanges env changes pol).forbidden ∧
    c ∉ (getInvalidLicenseChanges env changes pol).unresolved ∧
    c ∉ (getInvalidLicenseChanges env changes pol).unlicensed := by
  refine ⟨?_, ?_, ?_⟩ <;> intro hc <;>
    simp only [getInvalidLicenseChanges, evalLicensed] at hc
  · rcases foldl_evalStep_forbidden_src _ _ _ _ _ (cacheInv_nil _ _ _) c hc
      with h | ⟨hcL, _⟩
    · simp at h
    · exact (groupChanges_licensed_src env changes c hcL).2 hr
  · rcases foldl_evalStep_unresolved_src _ _ _ _ _ c hc with h | ⟨hcL, _⟩
    · simp at h
    · exact (groupChanges_licensed_src env changes c hcL).2 hr
  · rw [foldl_evalStep_unlicensed] at hc
    rcases List.mem_append.1 hc with h | h
    · exact (groupChanges_unlicensed_src env changes c h).2 hr
    · exact (groupChanges_licensed_src env changes c
        (List.mem_filter.1 h).1).2 hr

/-- Witness for C5 at a concrete removed change. -/
theorem claim5_removed_in_no_bucket_witness :
    (mkChange "a" ChangeType.removed (some "MIT") none) ∉
      (getInvalidLicenseChanges envEq
        [mkChange "a" ChangeType.removed (some "MIT") none]
        ⟨some ["GPL-3.0"], none⟩).forbidden ∧
    (mkChange "a" ChangeType.removed (some "MIT") none) ∉
      (getInvalidLicenseChanges envEq
        [mkChange "a" ChangeType.removed (some "MIT") none]
        ⟨some ["GPL-3.0"], none⟩).unresolved ∧
    (mkChange "a" ChangeType.removed (some "MIT") none) ∉
      (getInvalidLicenseChanges envEq
        [mkChange "a" ChangeType.removed (some "MIT") none]
        ⟨some ["GPL-3.0"], none⟩).unlicensed :=
  claim5_removed_in_no_bucket envEq
    [mkChange "a" ChangeType.removed (some "MIT") none]
    ⟨some ["GPL-3.0"], none⟩ _ rfl

/-- **C10**: every change in the `licensed` group produced by `groupChanges`
has a non-null license, and the null-license skip branch of the evaluation
loop is the identity, so it cannot fire on input coming from `groupChanges`. -/
theorem claim10_licensed_group_license_present (env : Env)
    (changes : List Change) :
    (∀ c ∈ (groupChanges env changes).licensed, c.license ≠ none) ∧
    (∀ (allow deny : Option (List String))
        (sat : String → String → Except Unit Bool)
        (acc : InvalidResult × Cache) (c : Change),
      c.license = none → evalStep allow deny sat acc c = acc) := by
  constructor
  · intro c hc hnone
    rcases (groupChanges_licensed_src env changes c hc).1 with ⟨l, hl⟩
    rw [hnone] at hl
    cases hl
  · intro allow deny sat acc c hl
    simp [evalStep, hl]

/-- Witness for C10 at a concrete licensed change and a concrete skipped
iteration. -/
theorem claim10_licensed_group_license_present_witness :
    (mkChange "a" ChangeType.added (some "MIT") none).license ≠ none ∧
    evalStep none none envEq.sat (⟨[], [], []⟩, [])
      (mkChange "b" ChangeType.added none none) = (⟨[], [], []⟩, []) :=
  ⟨(claim10_licensed_group_license_present envEq
      [mkChange "a" ChangeType.added (some "MIT") none]).1 _ (by decide),
    (claim10_licensed_group_license_present envEq []).2 none none envEq.sat
      _ _ rfl⟩

/-- **C4**: a non-removed change whose (original or remotely resolved)
license is exactly `"NOASSERTION"` lands in `unlicensed` and never in
`forbidden` or `unresolved`, for every policy; its license is never evaluated
against the allow/deny lists (the `"NOASSERTION"` key never enters the
validity cache, see `CacheInv`). -/
theorem claim4_noassertion_unlicensed (env : Env) (changes : List Change)
    (pol : Policy) (c : Change) :
    (c ∈ (groupChanges env changes).licensed →
      c.license = some "NOASSERTION" →
      c ∈ (getInvalidLicenseChanges env changes pol).unlicensed ∧
      c ∉ (getInvalidLicenseChanges env changes pol).forbidden ∧
      c ∉ (getInvalidLicenseChanges env changes pol).unresolved) ∧
    (c ∈ changes → c.change_type ≠ ChangeType.removed →
      c.license = some "NOASSERTION" →
      c ∈ (getInvalidLicenseChanges env changes pol).unlicensed ∧
      c ∉ (getInvalidLicenseChanges env changes pol).forbidden ∧
      c ∉ (getInvalidLicenseChanges env changes pol).unresolved) := by
  have main : c ∈ (groupChanges env changes).licensed →
      c.license = some "NOASSERTION" →
      c ∈ (getInvalidLicenseChanges env changes pol).unlicensed ∧
      c ∉ (getInvalidLicenseChanges env changes pol).forbidden ∧
      c ∉ (getInvalidLicenseChanges env changes pol).unresolved := by
    intro hc hl
    refine ⟨?_, ?_, ?_⟩
    · simp only [getInvalidLicenseChanges, evalLicensed]
      exact foldl_evalStep_unlicensed_mem _ _ _ _ _ c hc hl
    · intro hcf
      simp only [getInvalidLicenseChanges, evalLicensed] at hcf
      rcases foldl_evalStep_forbidden_src _ _ _ _ _ (cacheInv_nil _ _ _) c hcf
        with h | ⟨_, l, hl', hna, _⟩
      · simp at h
      · rw [hl] at hl'
        exact hna (by simpa using hl'.symm)
    · intro hcr
      simp only [getInvalidLicenseChanges, evalLicensed] at hcr
      rcases foldl_evalStep_unresolved_src _ _ _ _ _ c hcr
        with h | ⟨_, l, hl', hna, _⟩
      · simp at h
      · rw [hl] at hl'
        exact hna (by simpa using hl'.symm)
  refine ⟨main, ?_⟩
  intro hc hr hl
  refine main ?_ hl
  have h255 : ("NOASSERTION".length == 255) = false := by decide
  refine groupChanges_licensed_mem env changes c "NOASSERTION" hc hr hl ?_
  simp [truncatedDGLicense, h255]

/-- Witness for C4: a concrete `"NOASSERTION"` change is unlicensed and not
forbidden. -/
theorem claim4_noassertion_unlicensed_witness :
    (mkChange "a" ChangeType.added (some "NOASSERTION") none) ∈
      (getInvalidLicenseChanges envEq
        [mkChange "a" ChangeType.added (some "NOASSERTION") none]
        ⟨some ["MIT"], none⟩).unlicensed ∧
    (mkChange "a" ChangeType.added (some "NOASSERTION") none) ∉
      (getInvalidLicenseChanges envEq
        [mkChange "a" ChangeType.added (some "NOASSERTION") none]
        ⟨some ["MIT"], none⟩).forbidden :=
  ⟨((claim4_noassertion_unlicensed envEq
      [mkChange "a" ChangeType.added (some "NOASSERTION") none]
      ⟨some ["MIT"], none⟩ _).2 (by decide) (by decide) rfl).1,
    ((claim4_noassertion_unlicensed envEq
      [mkChange "a" ChangeType.added (some "NOASSERTION") none]
      ⟨some ["MIT"], none⟩ _).2 (by decide) (by decide) rfl).2.1⟩

/-- **C2**: for a licensed-group change with a non-`"NOASSERTION"` license
whose satisfaction checks do not throw: with `allow` configured (`deny`
ignored even when also present) the change is forbidden iff its license
satisfies no expression in `allow`; with `allow` absent and `deny` configured
it is forbidden iff its license satisfies at least one expression in `deny`.
`findSat` returns the first satisfied expression, so satisfying none is
`Except.ok none`. -/
theorem claim2_allow_deny_forbidden (env : Env) (changes : List Change)
    (pol : Policy) (c : Change) (l : String)
    (hc : c ∈ (groupChanges env changes).licensed)
    (hl : c.license = some l) (hna : l ≠ "NOASSERTION") :
    (∀ A found, pol.allow = some A →
      findSat env.sat l A = Except.ok found →
      (c ∈ (getInvalidLicenseChanges env changes pol).forbidden ↔
        found = none)) ∧
    (∀ D found, pol.allow = none → pol.deny = some D →
      findSat env.sat l D = Except.ok found →
      (c ∈ (getInvalidLicenseChanges env changes pol).forbidden ↔
        found ≠ none)) := by
  have key : ∀ b : Bool,
      evalPolicy env.sat pol.allow pol.deny l = some (Except.ok b) →
      (c ∈ (getInvalidLicenseChanges env changes pol).forbidden ↔
        b = false) := by
    intro b hep
    constructor
    · intro hcf
      simp only [getInvalidLicenseChanges, evalLicensed] at hcf
      rcases foldl_evalStep_forbidden_src _ _ _ _ _ (cacheInv_nil _ _ _) c hcf
        with h | ⟨_, l', hl', _, hep'⟩
      · simp at h
      · rw [hl] at hl'
        have hll : l = l' := by simpa using hl'
        subst hll
        rw [hep] at hep'
        simpa using hep'
    · intro hb
      subst hb
      simp only [getInvalidLicenseChanges, evalLicensed]
      exact foldl_evalStep_forbidden_mem _ _ _ _ _ (cacheInv_nil _ _ _) c hc
        l hl hna hep
  constructor
  · intro A found hA hfs
    have hep : evalPolicy env.sat pol.allow pol.deny l =
        some (Except.ok found.isSome) := by
      rw [evalPolicy.eq_def, hA]
      simp [hfs]
    rw [key found.isSome hep]
    cases found <;> simp
  · intro D found hA hD hfs
    have hep : evalPolicy env.sat pol.allow pol.deny l =
        some (Except.ok found.isNone) := by
      rw [evalPolicy.eq_def, hA, hD]
      simp [hfs]
    rw [key found.isNone hep]
    cases found <;> simp

/-- Witness for C2: with `allow = ["GPL-3.0"]` (and `deny` also present but
ignored) a concrete `"MIT"` change is forbidden, matching `findSat` returning
no satisfied expression. -/
theorem claim2_allow_deny_forbidden_witness :
    (mkChange "a" ChangeType.added (some "MIT") none) ∈
      (getInvalidLicenseChanges envEq
        [mkChange "a" ChangeType.added (some "MIT") none]
        ⟨some ["GPL-3.0"], some ["MIT"]⟩).forbidden :=
  ((claim2_allow_deny_forbidden envEq
      [mkChange "a" ChangeType.added (some "MIT") none]
      ⟨some ["GPL-3.0"], some ["MIT"]⟩ _ "MIT" (by decide) rfl
      (by decide)).1 ["GPL-3.0"] none rfl rfl).2 rfl

/-- **C7**: a licensed-group change whose configured satisfaction check
throws lands in `unresolved`, and no boolean is cached for its license string
(the evaluation loop is a total function, so no exception escapes
`getInvalidLicenseChanges`). -/
theorem claim7_throw_unresolved_uncached (env : Env) (changes : List Change)
    (pol : Policy) (c : Change) (l : String)
    (hc : c ∈ (groupChanges env changes).licensed)
    (hl : c.license = some l) (hna : l ≠ "NOASSERTION")
    (herr : evalPolicy env.sat pol.allow pol.deny l =
      some (Except.error ())) :
    c ∈ (getInvalidLicenseChanges env changes pol).unresolved ∧
    cacheGet (evalLicensed pol.allow pol.deny env.sat
      ⟨(groupChanges env changes).unlicensed, [], []⟩
      (groupChanges env changes).licensed).2 l = none := by
  constructor
  · simp only [getInvalidLicenseChanges, evalLicensed]
    exact foldl_evalStep_unresolved_mem _ _ _ _ _ (cacheInv_nil _ _ _) c hc
      l hl hna herr
  · simp only [evalLicensed]
    rcases hg : cacheGet (List.foldl (evalStep pol.allow pol.deny env.sat)
        (⟨⟨(groupChanges env changes).unlicensed, [], []⟩, ([] : Cache)⟩)
        (groupChanges env changes).licensed).2 l with _ | b
    · rfl
    · have hinv := foldl_evalStep_cacheInv pol.allow pol.deny env.sat
        (groupChanges env changes).licensed
        (⟨⟨(groupChanges env changes).unlicensed, [], []⟩, ([] : Cache)⟩)
        (cacheInv_nil _ _ _)
      have h2 := (hinv l b hg).2
      rw [herr] at h2
      simp at h2

/-- Witness for C7: with a throwing satisfaction oracle a concrete `"MIT"`
change is unresolved and its license is not cached. -/
theorem claim7_throw_unresolved_uncached_witness :
    (mkChange "a" ChangeType.added (some "MIT") none) ∈
      (getInvalidLicenseChanges envThrow
        [mkChange "a" ChangeType.added (some "MIT") none]
        ⟨some ["not a license"], none⟩).unresolved ∧
    cacheGet (evalLicensed (some ["not a license"]) none envThrow.sat
      ⟨(groupChanges envThrow
          [mkChange "a" ChangeType.added (some "MIT") none]).unlicensed,
        [], []⟩
      (groupChanges envThrow
        [mkChange "a" ChangeType.added (some "MIT") none]).licensed).2
      "MIT" = none :=
  claim7_throw_unresolved_uncached envThrow
    [mkChange "a" ChangeType.added (some "MIT") none]
    ⟨some ["not a license"], none⟩ _ "MIT" (by decide) rfl (by decide) rfl

/-- **C8**: remote resolution never throws and degrades every failure to "no
license": a malformed URL, a non-`github.com` host, or a short path makes
`parseGitHubURL` return `none` (so no lookup is attempted); a throwing lookup
makes `fetchGHLicense` return `none`; and a license-absent change with a
non-`github.com` source URL lands in the `unlicensed` bucket. -/
theorem claim8_resolver_fail_open (parseURL : String → Option ParsedURL)
    (api : String → String → Except Unit (Option String))
    (url owner repo : String) :
    (parseURL url = none → parseGitHubURL parseURL url = none) ∧
    (∀ p, parseURL url = some p → p.host ≠ "github.com" →
      parseGitHubURL parseURL url = none) ∧
    (∀ p, parseURL url = some p → (p.pathname.splitOn "/").length < 3 →
      parseGitHubURL parseURL url = none) ∧
    (api owner repo = Except.error () → fetchGHLicense api owner repo = none) ∧
    (∀ (env : Env) (changes : List Change) (pol : Policy) (c : Change)
        (u : String) (p : ParsedURL),
      c ∈ changes → c.change_type ≠ ChangeType.removed → c.license = none →
      c.source_repository_url = some u → env.parseURL u = some p →
      p.host ≠ "github.com" →
      c ∈ (getInvalidLicenseChanges env changes pol).unlicensed) := by
  refine ⟨?_, ?_, ?_, ?_, ?_⟩
  · intro h
    simp [parseGitHubURL, h]
  · intro p hp hh
    simp [parseGitHubURL, hp, hh]
  · intro p hp hlen
    by_cases hh : p.host ≠ "github.com"
    · simp [parseGitHubURL, hp, hh]
    · simp [parseGitHubURL, hp, hh, hlen]
  · intro h
    simp [fetchGHLicense, h]
  · intro env changes pol c u p hc hr hl hu hp hh
    have hfix : setGHLicense env c = c := by
      simp [setGHLicense, hl, hu, parseGitHubURL, hp, hh]
    have hmem := groupChanges_unlicensed_mem_gh env changes c u hc hr hl hu
      hfix
    simp only [getInvalidLicenseChanges, evalLicensed]
    rw [foldl_evalStep_unlicensed]
    exact List.mem_append_left _ hmem

/-- Witness for C8: concrete failures degrade to `none`, and a concrete
GitLab-hosted unlicensed change lands in `unlicensed`. -/
theorem claim8_resolver_fail_open_witness :
    parseGitHubURL envGitlab.parseURL "https://gitlab.com/acme/widget" =
      none ∧
    fetchGHLicense envThrow.api "acme" "widget" = none ∧
    (mkChange "w" ChangeType.added none
        (some "https://gitlab.com/acme/widget")) ∈
      (getInvalidLicenseChanges envGitlab
        [mkChange "w" ChangeType.added none
          (some "https://gitlab.com/acme/widget")]
        ⟨some ["MIT"], none⟩).unlicensed :=
  ⟨(claim8_resolver_fail_open envGitlab.parseURL envGitlab.api
      "https://gitlab.com/acme/widget" "acme" "widget").2.1
      ⟨"gitlab.com", "/acme/widget"⟩ rfl (by decide),
    (claim8_resolver_fail_open envGitlab.parseURL envThrow.api
      "https://gitlab.com/acme/widget" "acme" "widget").2.2.2.1 rfl,
    (claim8_resolver_fail_open envGitlab.parseURL envGitlab.api
      "https://gitlab.com/acme/widget" "acme" "widget").2.2.2.2 envGitlab
      [mkChange "w" ChangeType.added none
        (some "https://gitlab.com/acme/widget")]
      ⟨some ["MIT"], none⟩ _ "https://gitlab.com/acme/widget"
      ⟨"gitlab.com", "/acme/widget"⟩ (by decide) (by decide) rfl rfl rfl
      (by decide)⟩

/-- **C9**: remote resolution never mutates a change: `setGHLicenses` is an
elementwise map, and each output element is the original change — with every
field preserved — or the original with only `license` replaced by the lookup
result. -/
theorem claim9_resolution_frame (env : Env) (c : Change) :
    (∀ changes, setGHLicenses env changes =
      List.map (setGHLicense env) changes) ∧
    ((setGHLicense env c).name = c.name ∧
      (setGHLicense env c).version = c.version ∧
      (setGHLicense env c).manifest = c.manifest ∧
      (setGHLicense env c).change_type = c.change_type ∧
      (setGHLicense env c).source_repository_url =
        c.source_repository_url) ∧
    (setGHLicense env c = c ∨
      ∃ url gh, c.source_repository_url = some url ∧
        parseGitHubURL env.parseURL url = some gh ∧
        setGHLicense env c =
          { c with license := fetchGHLicense env.api gh.owner gh.repo }) := by
  have h3 : setGHLicense env c = c ∨
      ∃ url gh, c.source_repository_url = some url ∧
        parseGitHubURL env.parseURL url = some gh ∧
        setGHLicense env c =
          { c with license := fetchGHLicense env.api gh.owner gh.repo } := by
    by_cases h1 : (c.license.isSome || c.source_repository_url.isNone) = true
    · left
      simp [setGHLicense, h1]
    · have hlic : c.license = none := by
        rcases hll : c.license with _ | x
        · rfl
        · exact absurd (by simp [hll]) h1
      rcases hu : c.source_repository_url with _ | url
      · exact absurd (by simp [hu]) h1
      · rcases hg : parseGitHubURL env.parseURL url with _ | gh
        · left
          simp [setGHLicense, hlic, hu, hg]
        · right
          refine ⟨url, gh, rfl, hg, ?_⟩
          simp [setGHLicense, hlic, hu, hg]
  refine ⟨fun changes => rfl, ?_, h3⟩
  rcases h3 with heq | ⟨url, gh, _, _, heq⟩ <;> rw [heq] <;>
    exact ⟨rfl, rfl, rfl, rfl, rfl⟩

set_option maxRecDepth 8192 in
/-- **C1** fails on the code: a non-removed change with a 255-character,
SPDX-invalid license and a GitHub source URL is routed into the resolution
batch, but `setGHLicenses` skips every change whose license is non-null, so
no lookup is performed and the change rejoins `licensed` carrying the
truncated string, which is then evaluated against policy (here: forbidden),
even though the API would have reported `MIT`. -/
theorem claim1_truncated_license_not_looked_up :
    truncChange.change_type ≠ ChangeType.removed ∧
    truncLic.length = 255 ∧
    envTrunc.isSPDXValid truncLic = false ∧
    truncChange.license = some truncLic ∧
    truncChange.source_repository_url =
      some "https://github.com/acme/widget" ∧
    (List.foldl (groupStep envTrunc) (⟨⟨[], []⟩, []⟩) [truncChange]).2 =
      [truncChange] ∧
    setGHLicenses envTrunc [truncChange] = [truncChange] ∧
    fetchGHLicense envTrunc.api "acme" "widget" = some "MIT" ∧
    (groupChanges envTrunc [truncChange]).licensed = [truncChange] ∧
    (getInvalidLicenseChanges envTrunc [truncChange]
      ⟨some ["MIT"], none⟩).forbidden = [truncChange] := by
  refine ⟨by decide, by decide, rfl, rfl, rfl, by decide, by decide,
    rfl, by decide, by decide⟩

/-- The instrumented loop computes exactly the uninstrumented loop in its
first component. -/
theorem foldl_evalStepCount_fst (allow deny : Option (List String))
    (sat : String → String → Except Unit Bool) (L : List Change) :
    ∀ (acc : InvalidResult × Cache) (lg : List String),
      (List.foldl (evalStepCount allow deny sat) (acc, lg) L).1 =
        List.foldl (evalStep allow deny sat) acc L := by
  induction L with
  | nil => intro acc lg; rfl
  | cons c rest ih =>
    intro acc lg
    simp only [List.foldl_cons, evalStepCount]
    exact ih _ _

/-- Under a successful policy outcome for `l`, one instrumented iteration
preserves the state property "`l` uncached and unlogged, or cached and
logged at most once". -/
theorem evalStepCount_succ_pres (allow deny : Option (List String))
    (sat : String → String → Except Unit Bool) (l : String) (b : Bool)
    (hb : evalPolicy sat allow deny l = some (Except.ok b))
    (acc : InvalidResult × Cache) (lg : List String) (c : Change)
    (h : (cacheGet acc.2 l = none ∧ List.count l lg = 0) ∨
      (cacheGet acc.2 l ≠ none ∧ List.count l lg ≤ 1)) :
    (cacheGet (evalStep allow deny sat acc c).2 l = none ∧
      List.count l (lg ++ evalLogged allow deny acc.2 c) = 0) ∨
    (cacheGet (evalStep allow deny sat acc c).2 l ≠ none ∧
      List.count l (lg ++ evalLogged allow deny acc.2 c) ≤ 1) := by
  rw [evalStep_cache]
  rcases hlic : c.license with _ | lic
  · simpa [evalLogged, cacheStep, hlic] using h
  · by_cases hna : lic = "NOASSERTION"
    · simpa [evalLogged, cacheStep, hlic, hna] using h
    · by_cases hmiss : cacheGet acc.2 lic = none
      · by_cases hll : lic = l
        · subst hll
          rcases h with ⟨hn, hcount⟩ | ⟨hs, _⟩
          · right
            constructor
            · simp [cacheStep, hlic, hna, hmiss, hb, cacheGet_set_self]
            · rcases hA : allow with _ | A
              · rcases hD : deny with _ | D
                · rw [evalPolicy.eq_def, hA, hD] at hb; cases hb
                · simp [evalLogged, hlic, hna, hmiss, hA, hD,
                    List.count_append, List.count_cons, List.count_nil,
                    hcount]
              · simp [evalLogged, hlic, hna, hmiss, hA,
                  List.count_append, List.count_cons, List.count_nil,
                  hcount]
          · exact absurd hmiss hs
        · have hcache : cacheGet (cacheStep allow deny sat acc.2 c) l =
              cacheGet acc.2 l := by
            rcases cacheStep_char allow deny sat acc.2 c with heq |
              ⟨l0, b0, hl0, _, _, _, heq⟩
            · rw [heq]
            · rw [heq]
              have hl0c : l0 = lic := by
                rw [hlic] at hl0
                simpa using hl0.symm
              subst hl0c
              exact cacheGet_set_ne _ _ _ _ (Ne.symm hll)
          have hcount : List.count l
              (lg ++ evalLogged allow deny acc.2 c) = List.count l lg := by
            rcases hA : allow with _ | A
            · rcases hD : deny with _ | D
              · simp [evalLogged, hlic, hna, hmiss, hA, hD]
              · simp [evalLogged, hlic, hna, hmiss, hA, hD,
                  List.count_append, List.count_cons, List.count_nil, hll]
            · simp [evalLogged, hlic, hna, hmiss, hA, List.count_append,
                List.count_cons, List.count_nil, hll]
          rw [hcache, hcount]
          exact h
      · simpa [evalLogged, cacheStep, hlic, hna, hmiss] using h

/-- Fold version of `evalStepCount_succ_pres`. -/
theorem foldl_evalStepCount_succ (allow deny : Option (List String))
    (sat : String → String → Except Unit Bool) (l : String) (b : Bool)
    (hb : evalPolicy sat allow deny l = some (Except.ok b))
    (L : List Change) :
    ∀ (acc : InvalidResult × Cache) (lg : List String),
      ((cacheGet acc.2 l = none ∧ List.count l lg = 0) ∨
        (cacheGet acc.2 l ≠ none ∧ List.count l lg ≤ 1)) →
      ((cacheGet (List.foldl (evalStepCount allow deny sat) (acc, lg) L).1.2
          l = none ∧
        List.count l
          (List.foldl (evalStepCount allow deny sat) (acc, lg) L).2 = 0) ∨
       (cacheGet (List.foldl (evalStepCount allow deny sat) (acc, lg) L).1.2
          l ≠ none ∧
        List.count l
          (List.foldl (evalStepCount allow deny sat) (acc, lg) L).2 ≤ 1)) := by
  induction L with
  | nil => intro acc lg h; exact h
  | cons c rest ih =>
    intro acc lg h
    simp only [List.foldl_cons, evalStepCount]
    exact ih _ _ (evalStepCount_succ_pres allow deny sat l b hb acc lg c h)

/-- When the policy outcome for `l` is a thrown error, `l` never enters the
cache and is logged once per carrying change. -/
theorem foldl_evalStepCount_err (allow deny : Option (List String))
    (sat : String → String → Except Unit Bool) (l : String)
    (hna : l ≠ "NOASSERTION")
    (herr : evalPolicy sat allow deny l = some (Except.error ()))
    (L : List Change) :
    ∀ (acc : InvalidResult × Cache) (lg : List String),
      cacheGet acc.2 l = none →
      cacheGet (List.foldl (evalStepCount allow deny sat) (acc, lg) L).1.2 l
        = none ∧
      List.count l
          (List.foldl (evalStepCount allow deny sat) (acc, lg) L).2 =
        List.count l lg + List.countP (fun c => c.license == some l) L := by
  induction L with
  | nil => intro acc lg h; exact ⟨h, by simp⟩
  | cons c rest ih =>
    intro acc lg h
    simp only [List.foldl_cons, evalStepCount, List.countP_cons]
    have hcache : cacheGet (evalStep allow deny sat acc c).2 l = none := by
      rw [evalStep_cache]
      rcases cacheStep_char allow deny sat acc.2 c with heq |
        ⟨l0, b0, hl0, _, hmiss0, hep0, heq⟩
      · rwa [heq]
      · rw [heq]
        by_cases hll : l = l0
        · subst hll
          rw [herr] at hep0
          simp at hep0
        · rwa [cacheGet_set_ne _ _ _ _ hll]
    by_cases hcl : c.license = some l
    · have hlog : evalLogged allow deny acc.2 c = [l] := by
        rcases hA : allow with _ | A
        · rcases hD : deny with _ | D
          · rw [evalPolicy.eq_def, hA, hD] at herr; cases herr
          · simp [evalLogged, hcl, hna, h, hA, hD]
        · simp [evalLogged, hcl, hna, h, hA]
      rw [hlog]
      obtain ⟨hc2, hcount⟩ := ih (evalStep allow deny sat acc c) (lg ++ [l])
        hcache
      refine ⟨hc2, ?_⟩
      rw [hcount, List.count_append]
      simp [hcl, List.count_cons]
      omega
    · have hcount0 : List.count l (evalLogged allow deny acc.2 c) = 0 := by
        rcases hlic : c.license with _ | lic
        · simp [evalLogged, hlic]
        · have hll : lic ≠ l := fun he => hcl (by rw [hlic, he])
          by_cases hna2 : lic = "NOASSERTION"
          · simp [evalLogged, hlic, hna2]
          · by_cases hmiss2 : cacheGet acc.2 lic = none
            · rcases hA : allow with _ | A
              · rcases hD : deny with _ | D
                · simp [evalLogged, hlic, hna2, hmiss2, hA, hD]
                · simp [evalLogged, hlic, hna2, hmiss2, hA, hD,
                    List.count_cons, List.count_nil, hll]
              · simp [evalLogged, hlic, hna2, hmiss2, hA,
                  List.count_cons, List.count_nil, hll]
            · simp [evalLogged, hlic, hna2, hmiss2]
      obtain ⟨hc2, hcount⟩ := ih (evalStep allow deny sat acc c)
        (lg ++ evalLogged allow deny acc.2 c) hcache
      refine ⟨hc2, ?_⟩
      rw [hcount, List.count_append, hcount0]
      simp [hcl]

/-- **C6**: within one run, the instrumented loop (whose first component is
exactly the real loop) logs the allow/deny satisfaction matching at most once
per license string when evaluation succeeds; every cache entry is a
successful boolean outcome; and a license whose evaluation throws is
re-attempted once per change carrying it. -/
theorem claim6_cache_evaluates_once (sat : String → String → Except Unit Bool)
    (allow deny : Option (List String)) (U L : List Change) (l : String) :
    ((evalLicensedCount allow deny sat ⟨U, [], []⟩ L).1 =
      evalLicensed allow deny sat ⟨U, [], []⟩ L) ∧
    (∀ b, evalPolicy sat allow deny l = some (Except.ok b) →
      List.count l (evalLicensedCount allow deny sat ⟨U, [], []⟩ L).2 ≤ 1) ∧
    (∀ l' b', cacheGet
        (evalLicensedCount allow deny sat ⟨U, [], []⟩ L).1.2 l' = some b' →
      evalPolicy sat allow deny l' = some (Except.ok b')) ∧
    (l ≠ "NOASSERTION" →
      evalPolicy sat allow deny l = some (Except.error ()) →
      List.count l (evalLicensedCount allow deny sat ⟨U, [], []⟩ L).2 =
        List.countP (fun c => c.license == some l) L) := by
  refine ⟨?_, ?_, ?_, ?_⟩
  · simp only [evalLicensedCount, evalLicensed]
    exact foldl_evalStepCount_fst _ _ _ _ _ _
  · intro b hb
    simp only [evalLicensedCount]
    rcases foldl_evalStepCount_succ allow deny sat l b hb L
        (⟨⟨U, [], []⟩, ([] : Cache)⟩) [] (Or.inl ⟨rfl, rfl⟩) with
      ⟨_, h0⟩ | ⟨_, h1⟩
    · rw [h0]; exact Nat.zero_le 1
    · exact h1
  · intro l' b' hget
    simp only [evalLicensedCount] at hget
    rw [foldl_evalStepCount_fst] at hget
    have hinv := foldl_evalStep_cacheInv allow deny sat L
      (⟨⟨U, [], []⟩, ([] : Cache)⟩) (cacheInv_nil _ _ _)
    exact (hinv l' b' hget).2
  · intro hna herr
    simp only [evalLicensedCount]
    obtain ⟨_, hc⟩ := foldl_evalStepCount_err allow deny sat l hna herr L
      (⟨⟨U, [], []⟩, ([] : Cache)⟩) [] rfl
    rw [hc]
    simp

/-- Witness for C6 at concrete runs: two `"MIT"` changes under
`allow = ["MIT"]` log one successful evaluation and cache `true`; under a
throwing oracle the evaluation is re-attempted for both changes. -/
theorem claim6_cache_evaluates_once_witness :
    List.count "MIT" (evalLicensedCount (some ["MIT"]) none envEq.sat
      ⟨[], [], []⟩
      [mkChange "a" ChangeType.added (some "MIT") none,
        mkChange "b" ChangeType.added (some "MIT") none]).2 ≤ 1 ∧
    evalPolicy envEq.sat (some ["MIT"]) none "MIT" =
      some (Except.ok true) ∧
    List.count "MIT" (evalLicensedCount (some ["MIT"]) none envThrow.sat
      ⟨[], [], []⟩
      [mkChange "a" ChangeType.added (some "MIT") none,
        mkChange "b" ChangeType.added (some "MIT") none]).2 =
      List.countP (fun c => c.license == some "MIT")
        [mkChange "a" ChangeType.added (some "MIT") none,
          mkChange "b" ChangeType.added (some "MIT") none] :=
  ⟨(claim6_cache_evaluates_once envEq.sat (some ["MIT"]) none []
      [mkChange "a" ChangeType.added (some "MIT") none,
        mkChange "b" ChangeType.added (some "MIT") none] "MIT").2.1
      true rfl,
    (claim6_cache_evaluates_once envEq.sat (some ["MIT"]) none []
      [mkChange "a" ChangeType.added (some "MIT") none,
        mkChange "b" ChangeType.added (some "MIT") none] "MIT").2.2.1
      "MIT" true (by decide),
    (claim6_cache_evaluates_once envThrow.sat (some ["MIT"]) none []
      [mkChange "a" ChangeType.added (some "MIT") none,
        mkChange "b" ChangeType.added (some "MIT") none] "MIT").2.2.2
      (by decide) rfl⟩
